import Mathlib

/-!
# Verification of `cyclic_actions.py`

Shallow embedding of the program `cyclic_actions.py` (actions of cyclic
groups on an algebraic curve) and proofs about it.

The program is Python 2: `/` and `//` on ints are floor division, `%` is
modulo, and all integers are unbounded.  Every value that flows through the
enumeration on valid inputs (genus and branch counts non-negative) is a
non-negative integer, so the arithmetic core is embedded over `Nat`; the
three quantities that can genuinely become negative (`cp`, `h_num` and
`upper_limit` inside `run`) are embedded over `Int` with `Int.fdiv` for
Python's floor division.

The results structure built by `run` (a dict keyed by `r`, then by `h`,
holding `[disc, [ret, ...]]`) is represented by the chronological list of
`(r, h, ret)` records appended by `results[r][h][1].append(ret)`; the nested
dicts are uniquely determined by this list (the keys of the outer dict are
the `r` values occurring, the inner keys the `h` values occurring with that
`r`, and `results[r][h][0]` is always `discrepancies r`).
-/

namespace CyclicActions

/-- Embeds `gcd(a, b)` (`cyclic_actions.py` lines 114-125).  The Euclidean
loop `_gcd, tmp = a, b; while tmp != 0: _gcd, tmp = tmp, _gcd % tmp;
return _gcd` computes exactly `Nat.gcd` with the arguments swapped:
`Nat.gcd 0 y = y` and `Nat.gcd x y = Nat.gcd (y % x) x` is the same
recursion with the roles of the two registers exchanged. -/
def gcd (a b : Nat) : Nat := Nat.gcd b a

/-- Embeds `lcm(a, b) = a * b / gcd(a, b)` (lines 128-136). -/
def lcm (a b : Nat) : Nat := a * b / gcd a b

/-- Embeds `discrepancies(r)` (lines 141-154):
for `i` in `xrange(2, r + 1)`, if `r % i == 0`, append `(i - 1) * r / i`. -/
def discrepancies (r : Nat) : List Nat :=
  ((List.range' 2 (r - 1)).filter (fun i => r % i == 0)).map (fun i => (i - 1) * r / i)

/-- The list `[n, n-1, ..., 0]`: embeds `xrange(n, -1, -1)` for `n : Nat`. -/
def countdown (n : Nat) : List Nat :=
  (List.range (n + 1)).map (fun k => n - k)

/-- Embeds `all_discrepancies(discrepancies, Q, start)` (lines 157-184).
The `start` parameter of the source walks a suffix of the list, so the
suffix itself is the argument here (`elements_to_use = len(discrepancies)
- start` becomes `disc.length`).  The source first tests `Q == 0`
(returning one all-zero sequence of the remaining length), then gives up if
no positions remain, and otherwise tries each coefficient `i` from
`Q / curr` down to `0`. -/
def all_discrepancies (disc : List Nat) (Q : Nat) : List (List Nat) :=
  if Q = 0 then [List.replicate disc.length 0]
  else
    match disc with
    | [] => []
    | curr :: rest =>
      (countdown (Q / curr)).flatMap fun i =>
        (all_discrepancies rest (Q - i * curr)).map fun x => i :: x

/-- Embeds the recursive part of `_ac_check(r, a, start, total)`
(lines 187-210) for `start >= 1`: the argument is the suffix
`a[start:]`.  For each entry `ak` the source tries the exponents `i` in
`xrange(1, ak)` with `gcd(i, ak) == 1`, accumulating `total + i * r / ak`,
and at the end (`start >= len(a)`) tests `total % r == 0`. -/
def acCheckRest (r : Nat) : List Nat → Nat → Bool
  | [], total => total % r == 0
  | ak :: rest, total =>
    (List.range' 1 (ak - 1)).any fun i =>
      if gcd i ak = 1 then acCheckRest r rest (total + i * r / ak) else false

/-- Embeds `_ac_check(r, a)` called with `start = 0, total = 0`
(lines 187-210): an empty `a` immediately tests `0 % r == 0`; otherwise the
first exponent is fixed to `1` (the `start == 0` branch), contributing
`r // a[0]`, and the rest is searched by `acCheckRest`. -/
def acCheckTop (r : Nat) (a : List Nat) : Bool :=
  match a with
  | [] => (0 : Nat) % r == 0
  | a0 :: rest => acCheckRest r rest (r / a0)

/-- Insertion into a descending-sorted list (used to model Python's
`sorted(a, reverse=True)`; on a list of naturals the descending sort is
uniquely determined, so any sorting algorithm is a faithful model). -/
def insertDesc (x : Nat) : List Nat → List Nat
  | [] => [x]
  | y :: ys => if y < x then x :: y :: ys else y :: insertDesc x ys

/-- Descending sort, modelling `sorted(a, reverse=True)` (line 237). -/
def sortDesc (l : List Nat) : List Nat := l.foldr insertDesc []

/-- The part of the multiset `a` built from the prescribed branch points in
`ac_check` (lines 230-233): for each `idx_x, x` in `enumerate(br)`, if
`r != idx_x + 1`, extend `a` by `[r / (idx_x + 1)] * x`. -/
def acCheckABr (r : Nat) (br : List Nat) : List Nat :=
  br.enum.flatMap fun p => if r ≠ p.1 + 1 then List.replicate p.2 (r / (p.1 + 1)) else []

/-- The part of the multiset `a` built from the additional branch points in
`ac_check` (lines 234-236): for each `idx_x, x` in `enumerate(ret)`, if
`r != idx_x + 1`, extend `a` by `[r / (r - disc[idx_x])] * x`.  The source
raises `IndexError` when `ret` is longer than `disc`; `getD` totalizes
that out-of-domain case. -/
def acCheckARet (r : Nat) (disc ret : List Nat) : List Nat :=
  ret.enum.flatMap fun p =>
    if r ≠ p.1 + 1 then List.replicate p.2 (r / (r - disc.getD p.1 0)) else []

/-- The multiset `a` built by `ac_check` (lines 230-236). -/
def acCheckA (r : Nat) (br disc ret : List Nat) : List Nat :=
  acCheckABr r br ++ acCheckARet r disc ret

/-- Embeds `ac_check(r, br, disc, ret)` (lines 213-237):
`_ac_check(r, sorted(a, reverse=True))`. -/
def ac_check (r : Nat) (br disc ret : List Nat) : Bool :=
  acCheckTop r (sortDesc (acCheckA r br disc ret))

/-- One step of the accumulation loop of `run` (lines 253-257): on
`(lcm_, N, c)` and an `enumerate(branch)` pair `(i, f)` with `f != 0`,
update to `(lcm(lcm_, i+1), N + f, c + (i+1) * f)`. -/
def branchStep (acc : Nat × Nat × Nat) (p : Nat × Nat) : Nat × Nat × Nat :=
  if p.2 ≠ 0 then (lcm acc.1 (p.1 + 1), acc.2.1 + p.2, acc.2.2 + (p.1 + 1) * p.2)
  else acc

/-- The triple `(lcm_, N, c)` computed by the loop of `run`
(lines 249-257), starting from `(1, 0, 0)`. -/
def branchFold (branch : List Nat) : Nat × Nat × Nat :=
  branch.enum.foldl branchStep (1, 0, 0)

/-- `lcm_` of `run` (line 249, 255). -/
def lcmB (branch : List Nat) : Nat := (branchFold branch).1

/-- `N` of `run` (line 250, 256). -/
def nB (branch : List Nat) : Nat := (branchFold branch).2.1

/-- `c` of `run` (line 251, 257). -/
def cB (branch : List Nat) : Nat := (branchFold branch).2.2

/-- `cp = 2 * g - 2 + c` of `run` (line 258); can be negative for `g = 0`,
hence `Int`. -/
def cpV (g : Nat) (branch : List Nat) : Int := 2 * (g : Int) - 2 + (cB branch : Int)

/-- `upper_limit` of `run` (lines 260-265): Wiman's bound `2 * (2g + 1)`,
sharpened to `min(..., cp // (N - 2))` when `2 - N < 0` and to
`min(..., 2 * cp)` when `2 - N == 0`.  Python's `//` is floor division,
i.e. `Int.fdiv`. -/
def upperLimit (g : Nat) (branch : List Nat) : Int :=
  let wiman : Int := 2 * (2 * (g : Int) + 1)
  if 2 - (nB branch : Int) < 0 then min wiman ((cpV g branch).fdiv ((nB branch : Int) - 2))
  else if 2 - (nB branch : Int) = 0 then min wiman (2 * cpV g branch)
  else wiman

/-- Embeds `run(g, branch)` (lines 240-286), producing the chronological
list of `(r, h, ret)` records appended to the results structure.

* The `r` loop `range(max(lcm_, 2), upper_limit + 1, lcm_)` is the list
  `max(lcm_, 2) + k * lcm_` for `k < ceil((upper_limit + 1 - max(lcm_, 2))
  / lcm_)` (empty when the bound is negative, via `Int.toNat`).
* The `h` loop `xrange(h_num / h_den, -1, -1)` runs from
  `floor(h_num / h_den)` down to `0` (empty when that floor is negative).
* `Q = h_num - h_den * h` is non-negative throughout the `h` loop (since
  `h ≤ floor(h_num / h_den)` and `h_den = 2r > 0`), so passing `Q.toNat`
  to the `Nat`-valued `all_discrepancies` is faithful. -/
def run (g : Nat) (branch : List Nat) : List (Nat × Nat × List Nat) :=
  let L := lcmB branch
  let N := nB branch
  let cp := cpV g branch
  let ul := upperLimit g branch
  let rmin : Nat := max L 2
  let rcount : Nat := (((ul + 1) - (rmin : Int) + (L : Int) - 1).fdiv (L : Int)).toNat
  ((List.range rcount).map (fun k => rmin + k * L)).flatMap fun r =>
    let hden : Int := 2 * (r : Int)
    let hnum : Int := (2 - (N : Int)) * (r : Int) + cp
    let disc := discrepancies r
    let htop : Int := hnum.fdiv hden
    ((List.range (htop + 1).toNat).map (fun k => htop - k)).flatMap fun h =>
      let Q : Int := hnum - hden * h
      (all_discrepancies disc Q.toNat).filterMap fun ret =>
        if ac_check r branch disc ret then some (r, h.toNat, ret) else none

/-- Outcome of `main()` (lines 289-312): either the input-validation branch
at lines 305-307 is taken (the intent is to report usage; the actual line
`parser.usage()` calls the attribute `parser.usage`, which is `None` for a
parser constructed without a `usage` argument, so it raises `TypeError`
instead of printing — in both readings computation does not proceed), or
`run` is invoked on the validated input. -/
inductive MainOutcome where
  | invalidInput : MainOutcome
  | report : List (Nat × Nat × List Nat) → MainOutcome
deriving DecidableEq

/-- Embeds the decision logic of `main()` (lines 304-308): if
`args.genus < 0 or any([x < 0 for x in args.branch])` the computation is
abandoned before `run`; otherwise `run(args.genus, args.branch)` is
computed (the arguments, validated non-negative, are converted to `Nat`). -/
def main (genus : Int) (branch : List Int) : MainOutcome :=
  if genus < 0 || branch.any (fun x => decide (x < 0)) then MainOutcome.invalidInput
  else MainOutcome.report (run genus.toNat (branch.map Int.toNat))

/-- The branch-point sum `sum over j of (r - disc[j]) * combination[j]`
exactly as written in claim C1. -/
def claimBranchSum (r : Nat) (comb disc : List Nat) : Int :=
  (List.zipWith (fun c d => ((r : Int) - (d : Int)) * (c : Int)) comb disc).sum

/-- The branch-point sum `sum over j of disc[j] * combination[j]` (the
actual Riemann-Hurwitz branch contribution: a quotient branch point with
discrepancy `disc[j]` contributes `disc[j]`, and `combination[j]` counts
such points). -/
def branchSum (comb disc : List Nat) : Int :=
  (List.zipWith (fun c d => (d : Int) * (c : Int)) comb disc).sum

/-! ## Helper lemmas -/

theorem lcm_eq_natLcm (a b : Nat) : lcm a b = Nat.lcm a b := by
  unfold lcm gcd Nat.lcm
  rw [Nat.gcd_comm]

theorem lcm_pos {a b : Nat} (ha : 0 < a) (hb : 0 < b) : 0 < lcm a b := by
  rw [lcm_eq_natLcm]; exact Nat.lcm_pos ha hb

theorem branchStep_fst_pos {acc : Nat × Nat × Nat} (h : 0 < acc.1) (p : Nat × Nat) :
    0 < (branchStep acc p).1 := by
  unfold branchStep
  split
  · exact lcm_pos h (Nat.succ_pos _)
  · exact h

theorem foldl_branchStep_fst_pos (l : List (Nat × Nat)) :
    ∀ acc : Nat × Nat × Nat, 0 < acc.1 → 0 < (l.foldl branchStep acc).1 := by
  induction l with
  | nil => intro acc h; exact h
  | cons p l ih => intro acc h; exact ih _ (branchStep_fst_pos h p)

theorem lcmB_pos (branch : List Nat) : 0 < lcmB branch :=
  foldl_branchStep_fst_pos _ _ Nat.one_pos

theorem mem_countdown {n i : Nat} : i ∈ countdown n ↔ i ≤ n := by
  unfold countdown
  simp only [List.mem_map, List.mem_range]
  constructor
  · rintro ⟨k, hk, rfl⟩; omega
  · intro h; exact ⟨n - i, by omega, by omega⟩

/-- Zipping an all-zero coefficient list gives a zero sum. -/
theorem zipWith_replicate_zero_sum (n : Nat) (l : List Nat) :
    (List.zipWith (· * ·) (List.replicate n 0) l).sum = 0 := by
  induction n generalizing l with
  | zero => simp
  | succ m ih =>
    cases l with
    | nil => simp
    | cons x xs => simp [List.replicate_succ, ih xs]

/-- Elements of the divisor list underlying `discrepancies r` are the
divisors of `r` in `[2, r]`. -/
theorem mem_discDivisors {r i : Nat} :
    i ∈ (List.range' 2 (r - 1)).filter (fun i => r % i == 0) ↔
      2 ≤ i ∧ i ≤ r ∧ i ∣ r := by
  simp only [List.mem_filter, List.mem_range'_1, beq_iff_eq]
  constructor
  · rintro ⟨⟨h2, hlt⟩, hmod⟩
    exact ⟨h2, by omega, Nat.dvd_of_mod_eq_zero hmod⟩
  · rintro ⟨h2, hle, hdvd⟩
    exact ⟨⟨h2, by omega⟩, (Nat.dvd_iff_mod_eq_zero).mp hdvd⟩

theorem discDivisors_nodup (r : Nat) :
    ((List.range' 2 (r - 1)).filter (fun i => r % i == 0)).Nodup :=
  (List.nodup_range' _ _).filter _

theorem discDivisors_pairwise (r : Nat) :
    ((List.range' 2 (r - 1)).filter (fun i => r % i == 0)).Pairwise (· < ·) :=
  (List.pairwise_lt_range' _ _).filter _

theorem discDivisors_toFinset (r : Nat) :
    ((List.range' 2 (r - 1)).filter (fun i => r % i == 0)).toFinset =
      (Nat.divisors r).filter (fun i => 2 ≤ i) := by
  ext i
  simp only [List.mem_toFinset, mem_discDivisors, Finset.mem_filter, Nat.mem_divisors]
  constructor
  · rintro ⟨h2, hle, hdvd⟩
    exact ⟨⟨hdvd, by omega⟩, h2⟩
  · rintro ⟨⟨hdvd, hne⟩, h2⟩
    exact ⟨h2, Nat.le_of_dvd (by omega) hdvd, hdvd⟩

/-- For a divisor `i` of `r`, the value appended by `discrepancies` is
`r - r / i`. -/
theorem disc_value_eq {i r : Nat} (h : i ∣ r) (hi : 0 < i) :
    (i - 1) * r / i = r - r / i := by
  obtain ⟨k, rfl⟩ := h
  rw [Nat.mul_div_cancel_left k hi,
    show (i - 1) * (i * k) = (i - 1) * k * i by ring,
    Nat.mul_div_cancel _ hi, Nat.sub_mul]
  omega

theorem disc_length_le (r : Nat) : (discrepancies r).length ≤ r - 1 := by
  unfold discrepancies
  rw [List.length_map]
  exact (List.length_filter_le _ _).trans (le_of_eq (List.length_range' _ _ _))

/-- For divisors `a < b` of `r > 0`, the cofactor of `b` is smaller. -/
theorem div_lt_div_of_dvd_lt {r a b : Nat} (hr : 0 < r) (ha : a ∣ r) (hb : b ∣ r)
    (hab : a < b) : r / b < r / a := by
  obtain ⟨ka, hka⟩ := ha
  obtain ⟨kb, hkb⟩ := hb
  have ha0 : 0 < a := by
    rcases Nat.eq_zero_or_pos a with h | h
    · subst h; simp at hka; omega
    · exact h
  have hb0 : 0 < b := by omega
  have hka' : r / a = ka := by rw [hka, Nat.mul_div_cancel_left ka ha0]
  have hkb' : r / b = kb := by rw [hkb, Nat.mul_div_cancel_left kb hb0]
  have hka0 : 0 < ka := by
    rcases Nat.eq_zero_or_pos ka with h | h
    · subst h; simp at hka; omega
    · exact h
  rw [hka', hkb']
  by_contra hcon
  push_neg at hcon
  have h1 : b * ka ≤ b * kb := Nat.mul_le_mul_left b hcon
  have h2 : a * ka < b * ka := (Nat.mul_lt_mul_right hka0).mpr hab
  linarith [hka, hkb, h1, h2]

/-- The values appended by `discrepancies` grow strictly with the divisor. -/
theorem disc_strict_lt {r a b : Nat} (ha2 : 2 ≤ a) (har : a ≤ r) (hadvd : a ∣ r)
    (hb2 : 2 ≤ b) (hbr : b ≤ r) (hbdvd : b ∣ r) (hab : a < b) :
    (a - 1) * r / a < (b - 1) * r / b := by
  have hr : 0 < r := by omega
  rw [disc_value_eq hadvd (by omega), disc_value_eq hbdvd (by omega)]
  have h1 : r / b < r / a := div_lt_div_of_dvd_lt hr hadvd hbdvd hab
  have h2 : r / a ≤ r := Nat.div_le_self r a
  omega

/-- The sorted list of the divisors of `r` in `[2, r]` is exactly the
filtered range underlying `discrepancies`. -/
theorem discDivisors_sort (r : Nat) :
    Finset.sort (· ≤ ·) ((Nat.divisors r).filter (fun i => 2 ≤ i)) =
      (List.range' 2 (r - 1)).filter (fun i => r % i == 0) := by
  rw [← discDivisors_toFinset]
  exact (List.toFinset_sort (· ≤ ·) (discDivisors_nodup r)).mpr
    ((discDivisors_pairwise r).imp fun h => le_of_lt h)

/-- A step bound for the `r` loop of `run`: the `k`-th candidate
`rmin + k * L` is at most the upper limit used to size the range. -/
theorem run_key_le {L rmin : Nat} {ul : Int} {k : Nat} (hL : 0 < L)
    (hk : k < ((ul + 1 - (rmin : Int) + (L : Int) - 1).fdiv (L : Int)).toNat) :
    ((rmin + k * L : Nat) : Int) ≤ ul := by
  have h1 : ((k : Int)) < (ul + 1 - (rmin : Int) + (L : Int) - 1).fdiv (L : Int) :=
    Int.lt_toNat.mp hk
  have hL' : (0 : Int) < (L : Int) := by exact_mod_cast hL
  rw [Int.fdiv_eq_ediv _ (le_of_lt hL')] at h1
  have h2 : (k : Int) + 1 ≤ (ul + 1 - (rmin : Int) + (L : Int) - 1) / (L : Int) := h1
  have h3 : ((k : Int) + 1) * (L : Int) ≤ ul + 1 - (rmin : Int) + (L : Int) - 1 :=
    (Int.le_ediv_iff_mul_le hL').mp h2
  push_cast
  nlinarith [h3]

/-! ## Claims -/

/-- Claim C1 is false as stated: the triple `(r, h, combination) =
(5, 0, [3])` is recorded by `run(2, [])` (with stored discrepancy list
`discrepancies 5 = [4]`), but `2*g - 2 = 2` differs from
`r*(2*h - 2) + sum (r - disc[j]) * combination[j] = 5*(-2) + (5-4)*3 = -7`.
(The Riemann-Hurwitz identity the recorded triples do satisfy uses
`disc[j]`, not `r - disc[j]`; see the amended theorem.) -/
theorem C1_run_rh_claim_counterexample :
    (5, 0, [3]) ∈ run 2 [] ∧
      ¬((2 : Int) * 2 - 2 =
        (5 : Int) * (2 * (0 : Int) - 2) + claimBranchSum 5 [3] (discrepancies 5)) := by
  constructor
  · decide
  · decide

/-- Claim C1 (amended): for `run(2, [])`, every recorded triple
`(r, h, combination)` satisfies the Riemann-Hurwitz consistency
`2*g - 2 = r*(2*h - 2) + sum over j of disc[j] * combination[j]`, where
`disc = discrepancies r` is the discrepancy list stored for that `r`
(the claim's `(r - disc[j])` factor is replaced by `disc[j]`). -/
theorem C1_run_rh_amended :
    ∀ t ∈ run 2 [],
      (2 : Int) * 2 - 2 =
        (t.1 : Int) * (2 * (t.2.1 : Int) - 2) + branchSum t.2.2 (discrepancies t.1) := by
  decide

/-- Witness for the amended claim C1 at the concrete triple `(5, 0, [3])`. -/
theorem C1_run_rh_amended_witness :
    (2 : Int) * 2 - 2 =
      ((5, 0, [3]) : Nat × Nat × List Nat).1 *
        (2 * (((5, 0, [3]) : Nat × Nat × List Nat).2.1 : Int) - 2) +
        branchSum ((5, 0, [3]) : Nat × Nat × List Nat).2.2
          (discrepancies ((5, 0, [3]) : Nat × Nat × List Nat).1) :=
  C1_run_rh_amended (5, 0, [3]) (by decide)

/-- Claim C2 is false as stated: take `r = 2`, `br = []`,
`disc = discrepancies 2 = [1]`, `ret = [1]`.  The single index `idx = 0`
has `disc[0] = 1 = r - 1`, i.e. implied stabilizer index
`r / (r - disc[0]) = 2 = r`, so the claim says it contributes nothing to
the multiset `a`; but the multiset built by `ac_check` is `[2]`, not `[]`
(the code's exclusion test is `r != idx + 1`, a condition on the position
`idx`, which does not fire here). -/
theorem C2_ac_check_exclusion_counterexample :
    acCheckA 2 [] (discrepancies 2) [1] = [2] ∧
      (discrepancies 2).getD 0 0 = 2 - 1 ∧
      2 / (2 - (discrepancies 2).getD 0 0) = 2 := by
  decide

/-- Claim C2 (amended): in `ac_check(r, br, disc, ret)` with
`disc = discrepancies r` and `ret` of the same length, every index `idx`
contributes `r / (r - disc[idx])` to the multiset `a` once per point
(`ret[idx]` times), with no index excluded: the code's exclusion condition
is `r == idx + 1` — a condition on the position, not on the implied
stabilizer index — and it never holds because `discrepancies r` has at
most `r - 1` entries.  In particular a point whose implied stabilizer
index equals `r` (i.e. `disc[idx] = r - 1`) still contributes. -/
theorem C2_ac_check_contrib_amended (r : Nat) (br ret : List Nat) (hr : 2 ≤ r)
    (hlen : ret.length = (discrepancies r).length) :
    acCheckA r br (discrepancies r) ret =
      acCheckABr r br ++
        ret.enum.flatMap
          (fun p => List.replicate p.2 (r / (r - (discrepancies r).getD p.1 0))) := by
  unfold acCheckA acCheckARet
  congr 1
  apply List.flatMap_congr
  rintro ⟨i, x⟩ hp
  have hi : i < ret.length := (List.mem_enum hp).1
  have hlen2 : (discrepancies r).length ≤ r - 1 := disc_length_le r
  have hne : r ≠ i + 1 := by omega
  simp [hne]

/-- Witness for the amended claim C2 at `r = 2`, `br = []`, `ret = [1]`. -/
theorem C2_ac_check_contrib_amended_witness :
    acCheckA 2 [] (discrepancies 2) [1] =
      acCheckABr 2 [] ++
        ([1] : List Nat).enum.flatMap
          (fun p => List.replicate p.2 (2 / (2 - (discrepancies 2).getD p.1 0))) :=
  C2_ac_check_contrib_amended 2 [] [1] (by decide) (by decide)

/-- Claim C6: the example evaluations of `all_discrepancies`, including the
degenerate empty-list cases. -/
theorem C6_all_discrepancies_examples :
    all_discrepancies [3, 4, 5] 0 = [[0, 0, 0]] ∧
      all_discrepancies [2] 6 = [[3]] ∧
      all_discrepancies [2, 3] 6 = [[3, 0], [0, 2]] ∧
      all_discrepancies [] 0 = [[]] ∧
      ∀ Q : Nat, Q ≠ 0 → all_discrepancies [] Q = [] := by
  refine ⟨by decide, by decide, by decide, by decide, fun Q hQ => ?_⟩
  rw [all_discrepancies, if_neg hQ]

/-- Witness for claim C6's quantified degenerate case at `Q = 1`. -/
theorem C6_all_discrepancies_examples_witness :
    all_discrepancies [] 1 = [] :=
  C6_all_discrepancies_examples.2.2.2.2 1 (by decide)

/-- Claim C7: `run(2, [])` records `r = 5` among the returned orders, with
a valid `(h, combination)` entry (namely `h = 0`, `combination = [3]`). -/
theorem C7_run_includes_order_five :
    ∃ (h : Nat) (ret : List Nat), (5, h, ret) ∈ run 2 [] :=
  ⟨0, [3], by decide⟩

/-- Claim C8: `run`, `all_discrepancies` and `_ac_check` terminate on all
inputs.  The embeddings are total functions of Lean (accepted by structural
recursion: `all_discrepancies` recurses on the shrinking suffix of the
discrepancy list, `acCheckRest` on the shrinking suffix of `a`, and the
`r` and `h` loops of `run` are maps over finite ranges), so every
application evaluates to a result. -/
theorem C8_termination :
    (∀ (g : Nat) (branch : List Nat), ∃ res, run g branch = res) ∧
      (∀ (disc : List Nat) (Q : Nat), ∃ out, all_discrepancies disc Q = out) ∧
      (∀ (r : Nat) (a : List Nat) (total : Nat), ∃ b, acCheckRest r a total = b) :=
  ⟨fun _ _ => ⟨_, rfl⟩, fun _ _ => ⟨_, rfl⟩, fun _ _ _ => ⟨_, rfl⟩⟩

/-- Claim C9: on negative genus, `main` takes the validation branch and
`run` is never invoked.  (The claim also says the usage text is printed;
the source line `parser.usage()` actually calls the attribute
`parser.usage`, which is `None`, so it raises `TypeError` instead of
printing usage — the intent documented in the spec.  Computation still
does not proceed.) -/
theorem C9_main_rejects_negative :
    main (-1) [] = MainOutcome.invalidInput ∧
      main 0 [-1] = MainOutcome.invalidInput := by
  constructor
  · rfl
  · rfl

/-- Claim C10: for `r ≥ 2`, every element `d` of `discrepancies r`
satisfies `0 < d < r` and `(r - d) ∣ r`; hence in `ac_check` the division
`r / (r - disc[idx])` never divides by zero and is exact. -/
theorem C10_discrepancies_safety (r : Nat) (hr : 2 ≤ r) :
    ∀ d ∈ discrepancies r,
      0 < d ∧ d < r ∧ r - d ≠ 0 ∧ (r - d) ∣ r ∧ r / (r - d) * (r - d) = r := by
  intro d hd
  unfold discrepancies at hd
  rw [List.mem_map] at hd
  obtain ⟨i, hi, rfl⟩ := hd
  obtain ⟨h2, hle, hdvd⟩ := mem_discDivisors.mp hi
  have hipos : 0 < i := by omega
  rw [disc_value_eq hdvd hipos]
  have hfloor : r / i ≤ r / 2 := Nat.div_le_div_left h2 (by omega)
  have hlt : r / 2 < r := Nat.div_lt_self (by omega) (by omega)
  have hpos : 0 < r / i := Nat.div_pos hle hipos
  have hsub : r - (r - r / i) = r / i := by
    have := Nat.div_le_self r i
    omega
  have hdvd2 : (r - (r - r / i)) ∣ r := by
    rw [hsub]
    exact ⟨i, (Nat.div_mul_cancel hdvd).symm⟩
  refine ⟨by omega, by omega, by omega, hdvd2, ?_⟩
  exact Nat.div_mul_cancel hdvd2

/-- Claim C3: every coefficient sequence `c` returned by
`all_discrepancies disc Q` has the same length as `disc`, consists of
non-negative integers (automatic in `Nat`), and satisfies
`sum c[j] * disc[j] = Q` exactly. -/
theorem C3_all_discrepancies_invariant :
    ∀ (disc : List Nat) (Q : Nat) (c : List Nat), c ∈ all_discrepancies disc Q →
      c.length = disc.length ∧ (∀ x ∈ c, 0 ≤ x) ∧
        (List.zipWith (· * ·) c disc).sum = Q := by
  intro disc
  induction disc with
  | nil =>
    intro Q c hc
    rw [all_discrepancies] at hc
    by_cases hQ : Q = 0
    · rw [if_pos hQ] at hc
      simp only [List.length_nil, List.replicate_zero, List.mem_singleton] at hc
      subst hc
      subst hQ
      simp
    · rw [if_neg hQ] at hc
      simp at hc
  | cons curr rest ih =>
    intro Q c hc
    rw [all_discrepancies] at hc
    by_cases hQ : Q = 0
    · rw [if_pos hQ] at hc
      simp only [List.mem_singleton] at hc
      subst hc
      subst hQ
      refine ⟨by simp, fun x _ => Nat.zero_le x, ?_⟩
      exact zipWith_replicate_zero_sum _ _
    · rw [if_neg hQ] at hc
      simp only [List.mem_flatMap, List.mem_map] at hc
      obtain ⟨i, hi, x, hx, rfl⟩ := hc
      obtain ⟨hlen, -, hsum⟩ := ih _ x hx
      have hile : i ≤ Q / curr := mem_countdown.mp hi
      have hmul : i * curr ≤ Q :=
        le_trans (Nat.mul_le_mul_right curr hile) (Nat.div_mul_le_self Q curr)
      refine ⟨by simp [hlen], fun x _ => Nat.zero_le x, ?_⟩
      simp only [List.zipWith_cons_cons, List.sum_cons]
      rw [hsum]
      omega

/-- Witness for claim C3 at `disc = [2, 3]`, `Q = 6`, `c = [3, 0]`. -/
theorem C3_all_discrepancies_invariant_witness :
    ([3, 0] ∈ all_discrepancies [2, 3] 6) ∧
      ([3, 0] : List Nat).length = ([2, 3] : List Nat).length ∧
      (∀ x ∈ ([3, 0] : List Nat), 0 ≤ x) ∧
      (List.zipWith (· * ·) [3, 0] [2, 3]).sum = 6 :=
  ⟨by decide, C3_all_discrepancies_invariant [2, 3] 6 [3, 0] (by decide)⟩

/-- Claim C4: every key `r` of the results of `run g branch` is at least
`max(lcm_, 2)`, is a multiple of `lcm_`, and is at most `upper_limit`
(the formulas for `lcm_`, `N`, `cp` and `upper_limit` are the definitions
`lcmB`, `nB`, `cpV` and `upperLimit` used by `run` itself, which are
literal transcriptions of the claim's formulas). -/
theorem C4_run_keys_bounds (g : Nat) (branch : List Nat) (t : Nat × Nat × List Nat)
    (ht : t ∈ run g branch) :
    max (lcmB branch) 2 ≤ t.1 ∧ lcmB branch ∣ t.1 ∧
      (t.1 : Int) ≤ upperLimit g branch := by
  have hL : 0 < lcmB branch := lcmB_pos branch
  unfold run at ht
  simp only [List.mem_flatMap, List.mem_map, List.mem_range, List.mem_filterMap] at ht
  obtain ⟨r, ⟨k, hk, rfl⟩, h, hh, ret, hret, hif⟩ := ht
  have ht1 : t.1 = max (lcmB branch) 2 + k * lcmB branch := by
    by_cases hac : ac_check (max (lcmB branch) 2 + k * lcmB branch) branch
        (discrepancies (max (lcmB branch) 2 + k * lcmB branch)) ret
    · rw [if_pos hac] at hif
      cases hif
      rfl
    · rw [if_neg hac] at hif
      cases hif
  refine ⟨?_, ?_, ?_⟩
  · rw [ht1]; exact Nat.le_add_right _ _
  · rw [ht1]
    refine Nat.dvd_add ?_ (dvd_mul_left (lcmB branch) k)
    have : lcmB branch = 1 ∨ lcmB branch = 2 ∨ 2 < lcmB branch := by omega
    rcases this with h1 | h1 | h1
    · rw [h1]; exact one_dvd _
    · rw [h1]; decide
    · rw [Nat.max_eq_left (by omega)]
  · rw [ht1]
    exact run_key_le hL hk

/-- Witness for claim C4 at `g = 2`, `branch = []`, key `r = 2`. -/
theorem C4_run_keys_bounds_witness :
    ((2, 1, [2]) ∈ run 2 []) ∧
      (max (lcmB []) 2 ≤ 2 ∧ lcmB [] ∣ 2 ∧ ((2 : Nat) : Int) ≤ upperLimit 2 []) :=
  ⟨by decide, C4_run_keys_bounds 2 [] (2, 1, [2]) (by decide)⟩

/-- Claim C5: for `r ≥ 2`, `discrepancies r` is exactly the list of
`(i - 1) * r / i` over the divisors `i` of `r` in `[2, r]` in increasing
order of `i`; its length is the number of such divisors; its values are
strictly increasing; its last element is `r - 1`; and
`discrepancies 6 = [3, 4, 5]`. -/
theorem C5_discrepancies_spec (r : Nat) (hr : 2 ≤ r) :
    discrepancies r =
        (Finset.sort (· ≤ ·) ((Nat.divisors r).filter (fun i => 2 ≤ i))).map
          (fun i => (i - 1) * r / i) ∧
      (discrepancies r).length = ((Nat.divisors r).filter (fun i => 2 ≤ i)).card ∧
      (discrepancies r).Pairwise (· < ·) ∧
      (discrepancies r).getLast? = some (r - 1) ∧
      discrepancies 6 = [3, 4, 5] := by
  refine ⟨?_, ?_, ?_, ?_, by decide⟩
  · rw [discDivisors_sort]
    rfl
  · rw [← discDivisors_toFinset, List.toFinset_card_of_nodup (discDivisors_nodup r)]
    unfold discrepancies
    rw [List.length_map]
  · unfold discrepancies
    rw [List.pairwise_map]
    refine List.Pairwise.imp_of_mem ?_ (discDivisors_pairwise r)
    intro a b hma hmb hab
    obtain ⟨ha2, har, hadvd⟩ := mem_discDivisors.mp hma
    obtain ⟨hb2, hbr, hbdvd⟩ := mem_discDivisors.mp hmb
    exact disc_strict_lt ha2 har hadvd hb2 hbr hbdvd hab
  · have hsplit : List.range' 2 (r - 1) = List.range' 2 (r - 2) ++ [r] := by
      have h1 : r - 1 = (r - 2) + 1 := by omega
      rw [h1, List.range'_concat]
      congr 1
      congr 1
      omega
    unfold discrepancies
    rw [hsplit, List.filter_append, List.map_append]
    have hfilt : List.filter (fun i => r % i == 0) [r] = [r] := by
      simp [Nat.mod_self]
    rw [hfilt]
    simp only [List.map_cons, List.map_nil]
    rw [List.getLast?_concat]
    congr 1
    exact Nat.mul_div_cancel _ (by omega)

/-- Witness for claim C5 at `r = 6`. -/
theorem C5_discrepancies_spec_witness :
    discrepancies 6 =
        (Finset.sort (· ≤ ·) ((Nat.divisors 6).filter (fun i => 2 ≤ i))).map
          (fun i => (i - 1) * 6 / i) ∧
      (discrepancies 6).length = ((Nat.divisors 6).filter (fun i => 2 ≤ i)).card ∧
      (discrepancies 6).Pairwise (· < ·) ∧
      (discrepancies 6).getLast? = some (6 - 1) ∧
      discrepancies 6 = [3, 4, 5] :=
  C5_discrepancies_spec 6 (by decide)

/-- Witness for claim C10 at `r = 6`, `d = 3`. -/
theorem C10_discrepancies_safety_witness :
    0 < 3 ∧ 3 < 6 ∧ 6 - 3 ≠ 0 ∧ (6 - 3) ∣ 6 ∧ 6 / (6 - 3) * (6 - 3) = 6 :=
  C10_discrepancies_safety 6 (by decide) 3 (by decide)

end CyclicActions
